import Mathlib

/-!
Shallow embedding of `toggl-discord.js` (a Toggl → Discord daily summary
script) and proofs about its pure core: duration calculation, the 5-minute
rounding policy, tag aggregation, duration formatting, the report-window
clamp, run-date parsing, the project filter, and the dry-run / delivery
decision of `main`.

JavaScript numbers that only ever hold integer values (seconds, millisecond
timestamps) are modelled as `Int`/`Nat`.  `Date.parse` / `new Date(s).getTime()`
is an external collaborator and is modelled as an abstract
`parse : String → Option Int` (`none` stands for `NaN`, i.e. an unparseable
timestamp); `Date.now()` is an injected `now : Int` in milliseconds.
-/

/-- One Toggl time entry, with exactly the attributes the script consumes:
`duration` (signed integer seconds, absent meaning "running"), `start`
(timestamp string), `tags`, `description`, `project_id`. -/
structure Entry where
  duration : Option Int
  start : Option String
  tags : List String
  description : Option String
  project_id : Option Int
deriving DecidableEq, Repr

/-- `startMillis` embeds `const start = entry.start ? new Date(entry.start).getTime() : 0`
followed by the JS falsiness test `!start`: an absent field and the empty
string (falsy) give the sentinel `0`, and a `NaN` parse (modelled as
`parse s = none`) is also collapsed to `0` because both `0` and `NaN` are
falsy at the `if (!start) return 0` check. -/
def startMillis (parse : String → Option Int) (e : Entry) : Int :=
  match e.start with
  | none => 0
  | some s => if s = "" then 0 else (parse s).getD 0

/-- Embeds `entryDurationSeconds` (src/toggl-discord.js:77-86):
absent record → 0; a present non-negative `duration` is returned unchanged;
otherwise compute `Math.max(0, Math.floor((Date.now() - start) / 1000))`
from a truthy parsed `start`, and 0 when `start` is missing/falsy/NaN. -/
def entryDurationSeconds (parse : String → Option Int) (now : Int) (entry : Option Entry) : Int :=
  match entry with
  | none => 0
  | some e =>
    let fromStart : Int :=
      let start := startMillis parse e
      if start = 0 then 0 else max 0 ((now - start).fdiv 1000)
    match e.duration with
    | some d => if 0 ≤ d then d else fromStart
    | none => fromStart

/-- Embeds `roundToNearestFiveMinutes` (src/toggl-discord.js:88-92):
`if (seconds <= 0) return 0; return Math.max(300, Math.round(seconds / 300) * 300)`.
For a positive integer `s`, JS `Math.round(s / 300)` (round half toward +∞)
equals the natural-number division `(s + 150) / 300`. -/
def roundToNearestFiveMinutes (seconds : Int) : Int :=
  if seconds ≤ 0 then 0
  else max 300 ((((seconds.toNat + 150) / 300) * 300 : Nat) : Int)

/-- Rounded duration of one entry from the list (the composition the script
applies at every aggregation site). -/
def roundedDur (parse : String → Option Int) (now : Int) (e : Entry) : Int :=
  roundToNearestFiveMinutes (entryDurationSeconds parse now (some e))

/-- **C1.** For every integer `s` the rounding policy returns 0 for `s ≤ 0`;
for `s > 0` it returns the nearest multiple of 300 under round-half-up
floored at 300 (witnessed by a multiple `n` of 300 with `n - 150 ≤ s < n + 150`
and result `max 300 n`); consequently for `s > 0` the result is a multiple of
300, is at least 300, and the policy is idempotent on its own output. -/
theorem roundToNearestFiveMinutes_spec (s : Int) :
    (s ≤ 0 → roundToNearestFiveMinutes s = 0) ∧
    (0 < s → ∃ n : Int, n % 300 = 0 ∧ n - 150 ≤ s ∧ s < n + 150 ∧
      roundToNearestFiveMinutes s = max 300 n) ∧
    (0 < s → roundToNearestFiveMinutes s % 300 = 0) ∧
    (0 < s → 300 ≤ roundToNearestFiveMinutes s) ∧
    (0 < s → roundToNearestFiveMinutes
        (roundToNearestFiveMinutes s) = roundToNearestFiveMinutes s) := by
  constructor
  · intro hs
    simp [roundToNearestFiveMinutes, hs]
  have hpos : 0 < s → roundToNearestFiveMinutes s =
      max 300 ((((s.toNat + 150) / 300) * 300 : Nat) : Int) := by
    intro hs
    simp [roundToNearestFiveMinutes, not_le.mpr hs]
  refine ⟨?_, ?_, ?_, ?_⟩
  · intro hs
    refine ⟨(((s.toNat + 150) / 300) * 300 : Nat), ?_, ?_, ?_, hpos hs⟩
    · have : ((s.toNat + 150) / 300) * 300 % 300 = 0 := Nat.mul_mod_left _ _
      omega
    · omega
    · omega
  · intro hs
    rw [hpos hs]
    rcases le_or_lt ((((s.toNat + 150) / 300) * 300 : Nat) : Int) 300 with h | h
    · rw [max_eq_left h]; norm_num
    · rw [max_eq_right (le_of_lt h)]
      have : ((s.toNat + 150) / 300) * 300 % 300 = 0 := Nat.mul_mod_left _ _
      omega
  · intro hs
    rw [hpos hs]
    exact le_max_left _ _
  · intro hs
    have h300 : (300 : Int) ≤ roundToNearestFiveMinutes s := by
      rw [hpos hs]; exact le_max_left _ _
    have hmod : roundToNearestFiveMinutes s % 300 = 0 := by
      rw [hpos hs]
      rcases le_or_lt ((((s.toNat + 150) / 300) * 300 : Nat) : Int) 300 with h | h
      · rw [max_eq_left h]; norm_num
      · rw [max_eq_right (le_of_lt h)]
        have : ((s.toNat + 150) / 300) * 300 % 300 = 0 := Nat.mul_mod_left _ _
        omega
    set r := roundToNearestFiveMinutes s with hr
    have hrpos : (0 : Int) < r := by omega
    have hres : roundToNearestFiveMinutes r =
        max 300 ((((r.toNat + 150) / 300) * 300 : Nat) : Int) := by
      simp [roundToNearestFiveMinutes, not_le.mpr hrpos]
    obtain ⟨k, hk⟩ : ∃ k : Nat, r.toNat = 300 * k := by
      have h1 : r.toNat = r := Int.toNat_of_nonneg (le_of_lt hrpos)
      have h2 : (300 : Int) ∣ r := Int.dvd_of_emod_eq_zero hmod
      obtain ⟨c, hc⟩ := h2
      refine ⟨c.toNat, ?_⟩
      have hcpos : 0 ≤ c := by nlinarith
      have : c.toNat = c := Int.toNat_of_nonneg hcpos
      omega
    have hdiv : (r.toNat + 150) / 300 = k := by omega
    rw [hres, hdiv]
    have h1 : r.toNat = r := Int.toNat_of_nonneg (le_of_lt hrpos)
    have : (300 : Int) ≤ r := h300
    rw [max_eq_right (by omega)]
    omega

/-- Witness for C1 at `s = 7`: a positive input below half a bucket still
reports as one full 5-minute bucket, a multiple of 300, idempotently. -/
theorem roundToNearestFiveMinutes_spec_witness :
    roundToNearestFiveMinutes 7 % 300 = 0 ∧
    300 ≤ roundToNearestFiveMinutes 7 ∧
    roundToNearestFiveMinutes (roundToNearestFiveMinutes 7) = roundToNearestFiveMinutes 7 :=
  ⟨(roundToNearestFiveMinutes_spec 7).2.2.1 (by decide),
   (roundToNearestFiveMinutes_spec 7).2.2.2.1 (by decide),
   (roundToNearestFiveMinutes_spec 7).2.2.2.2 (by decide)⟩

/-- Whether `typeof entry.duration === "number" && entry.duration >= 0` fails,
i.e. the script falls through to the running-entry branch. -/
def durationNegOrAbsent (e : Entry) : Prop :=
  e.duration = none ∨ ∃ d, e.duration = some d ∧ d < 0

/-- **C4 (amended).** For every entry record and injected `now`:
`entryDurationSeconds` returns 0 for an absent record; returns a present
non-negative `duration` unchanged regardless of `start`; returns
`max 0 (floor ((now - start) / 1000))` whenever `duration` is negative or
absent and `start` is a non-empty string parsing to an instant whose
millisecond timestamp is nonzero; and returns 0 when `start` is missing,
empty, unparseable, or parses to exactly the Unix epoch (0 ms) — the JS
falsiness check `if (!start) return 0` cannot distinguish the epoch (or an
empty string) from a missing start. -/
theorem entryDurationSeconds_spec (parse : String → Option Int) (now : Int) :
    entryDurationSeconds parse now none = 0 ∧
    (∀ e d, e.duration = some d → 0 ≤ d →
      entryDurationSeconds parse now (some e) = d) ∧
    (∀ e s m, durationNegOrAbsent e → e.start = some s → s ≠ "" →
      parse s = some m → m ≠ 0 →
      entryDurationSeconds parse now (some e) = max 0 ((now - m).fdiv 1000)) ∧
    (∀ e, durationNegOrAbsent e →
      (e.start = none ∨ e.start = some "" ∨
        (∀ s, e.start = some s → (parse s = none ∨ parse s = some 0))) →
      entryDurationSeconds parse now (some e) = 0) := by
  refine ⟨rfl, ?_, ?_, ?_⟩
  · intro e d hd hnn
    simp [entryDurationSeconds, hd, hnn]
  · intro e s m hneg hs hne hm hmz
    have hstart : startMillis parse e = m := by
      simp [startMillis, hs, hne, hm]
    rcases hneg with h | ⟨d, hd, hdneg⟩
    · simp [entryDurationSeconds, h, hstart, hmz]
    · simp [entryDurationSeconds, hd, not_le.mpr hdneg, hstart, hmz]
  · intro e hneg hbad
    have hstart : startMillis parse e = 0 := by
      rcases hbad with h | h | h
      · simp [startMillis, h]
      · simp [startMillis, h]
      · cases hcase : e.start with
        | none => simp [startMillis, hcase]
        | some s =>
          by_cases hse : s = ""
          · simp [startMillis, hcase, hse]
          · rcases h s hcase with hp | hp <;> simp [startMillis, hcase, hse, hp]
    rcases hneg with h | ⟨d, hd, hdneg⟩
    · simp [entryDurationSeconds, h, hstart]
    · simp [entryDurationSeconds, hd, not_le.mpr hdneg, hstart]

/-- A concrete parse table: `"1970-01-01T00:00:00Z"` parses to the epoch
(0 ms); every other string is unparseable. -/
def epochParse : String → Option Int :=
  fun s => if s = "1970-01-01T00:00:00Z" then some 0 else none

/-- A running entry (duration −1) whose `start` parses to the Unix epoch. -/
def epochEntry : Entry :=
  { duration := some (-1), start := some "1970-01-01T00:00:00Z",
    tags := [], description := none, project_id := none }

/-- **C4 counterexample.** At `now = 5000` ms, an entry with negative
`duration` whose `start` is present and parses to a valid instant (the Unix
epoch, 0 ms) yields 0, not `max 0 (floor ((now - start) / 1000)) = 5` as the
claim requires: the falsy-`0` check swallows the epoch. -/
theorem entryDurationSeconds_epoch_counterexample :
    entryDurationSeconds epochParse 5000 (some epochEntry) = 0 ∧
    epochEntry.start = some "1970-01-01T00:00:00Z" ∧
    epochParse "1970-01-01T00:00:00Z" = some 0 ∧
    epochEntry.duration = some (-1) ∧
    max 0 ((5000 - (0 : Int)).fdiv 1000) = 5 ∧
    entryDurationSeconds epochParse 5000 (some epochEntry) ≠
      max 0 ((5000 - (0 : Int)).fdiv 1000) := by
  refine ⟨by decide, rfl, by decide, rfl, by decide, by decide⟩

/-- **C4 witness** at a concrete running entry: `duration = some (-1)`,
`start` parsing to 2000 ms, `now = 9500` ms gives
`max 0 (floor (7500 / 1000)) = 7` seconds. -/
theorem entryDurationSeconds_spec_witness :
    entryDurationSeconds (fun s => if s = "t0" then some 2000 else none) 9500
      (some { duration := some (-1), start := some "t0",
              tags := [], description := none, project_id := none }) =
      max 0 ((9500 - (2000 : Int)).fdiv 1000) :=
  (entryDurationSeconds_spec (fun s => if s = "t0" then some 2000 else none) 9500).2.2.1
    { duration := some (-1), start := some "t0",
      tags := [], description := none, project_id := none }
    "t0" 2000 (Or.inr ⟨-1, rfl, by decide⟩) rfl (by decide) (by decide) (by decide)

/-- Embeds JS `s.padStart(2, "0")`: prepend zeros until length 2. -/
def padStart2Zero (s : String) : String :=
  if s.length < 2 then String.mk (List.replicate (2 - s.length) '0') ++ s else s

/-- Embeds `formatDuration` (src/toggl-discord.js:94-102) on the non-negative
integers the script feeds it. -/
def formatDuration (totalSeconds : Nat) : String :=
  let hours := totalSeconds / 3600
  let minutes := (totalSeconds % 3600) / 60
  let seconds := totalSeconds % 60
  if hours > 0 then Nat.repr hours ++ "h" ++ padStart2Zero (Nat.repr minutes)
  else if minutes > 0 then Nat.repr minutes ++ "m" ++ padStart2Zero (Nat.repr seconds)
  else Nat.repr seconds ++ "s"

/-- **C6.** For every non-negative integer `n`, `formatDuration` renders
`{H}h{MM}` when hours > 0 (minutes zero-padded to 2 digits, seconds dropped),
else `{M}m{SS}` when minutes > 0 (seconds zero-padded to 2 digits), else
`{S}s`; in particular 3665 → "1h01", 125 → "2m05", 45 → "45s", 0 → "0s". -/
theorem formatDuration_spec :
    (∀ n : Nat, 3600 ≤ n →
      formatDuration n =
        Nat.repr (n / 3600) ++ "h" ++ padStart2Zero (Nat.repr ((n / 60) % 60))) ∧
    (∀ n : Nat, n < 3600 → 60 ≤ n →
      formatDuration n = Nat.repr (n / 60) ++ "m" ++ padStart2Zero (Nat.repr (n % 60))) ∧
    (∀ n : Nat, n < 60 → formatDuration n = Nat.repr n ++ "s") ∧
    formatDuration 3665 = "1h01" ∧ formatDuration 125 = "2m05" ∧
    formatDuration 45 = "45s" ∧ formatDuration 0 = "0s" := by
  refine ⟨?_, ?_, ?_, by decide, by decide, by decide, by decide⟩
  · intro n hn
    have h1 : 0 < n / 3600 := by omega
    have h2 : n % 3600 / 60 = n / 60 % 60 := by omega
    simp [formatDuration, h1, h2]
  · intro n hn hn60
    have h1 : n / 3600 = 0 := by omega
    have h2 : n % 3600 = n := by omega
    have h3 : 0 < n / 60 := by omega
    simp [formatDuration, h1, h2, h3]
  · intro n hn
    have h1 : n / 3600 = 0 := by omega
    have h2 : n % 3600 / 60 = 0 := by omega
    have h3 : n % 60 = n := by omega
    simp [formatDuration, h1, h2, h3]

/-- **C6 witness**: the hours clause applied at `n = 3665`. -/
theorem formatDuration_spec_witness :
    formatDuration 3665 =
      Nat.repr (3665 / 3600) ++ "h" ++ padStart2Zero (Nat.repr ((3665 / 60) % 60)) :=
  formatDuration_spec.1 3665 (by decide)

/-- `MIN_ENTRY_DATE` (src/toggl-discord.js:11), the fixed cutoff instant
`2025-12-04T00:00:00Z`, as a Unix millisecond timestamp. -/
def MIN_ENTRY_DATE_millis : Int := 1764806400000

/-- Embeds the clamp in `getTimeEntries` (src/toggl-discord.js:64-69):
`Math.max(start.toMillis(), MIN_ENTRY_DATE.toMillis())`. -/
def clampedStartMillis (startM : Int) : Int := max startM MIN_ENTRY_DATE_millis

/-- The `(start_date, end_date)` pair of Unix-millisecond instants that
`getTimeEntries` actually puts in the fetch URL, given the requested window:
the start is clamped to the cutoff, the end is passed through unchanged. -/
def fetchWindow (startM endM : Int) : Int × Int :=
  (clampedStartMillis startM, endM)

/-- **C5 (amended).** The fetched interval's start is never earlier than the
fixed cutoff instant 2025-12-04T00:00:00Z; when the requested window has
`start ≤ end` and its end is not before the cutoff, the fetched interval
satisfies `start ≤ end`; but when the requested window ends strictly before
the cutoff, the clamp produces an *inverted* interval (`start > end`) — the
code sends it to the provider as-is rather than collapsing it to an empty
window. -/
theorem fetchWindow_spec (s e : Int) :
    MIN_ENTRY_DATE_millis ≤ (fetchWindow s e).1 ∧
    (s ≤ e → MIN_ENTRY_DATE_millis ≤ e → (fetchWindow s e).1 ≤ (fetchWindow s e).2) ∧
    (e < MIN_ENTRY_DATE_millis → (fetchWindow s e).2 < (fetchWindow s e).1) := by
  refine ⟨le_max_right _ _, ?_, ?_⟩
  · intro h1 h2
    simp only [fetchWindow, clampedStartMillis]
    exact max_le h1 h2
  · intro h
    simp only [fetchWindow, clampedStartMillis]
    exact lt_of_lt_of_le h (le_max_right _ _)

/-- **C5 counterexample.** Run date 2025-12-01 (America/New_York) resolves to
the requested day window `[2025-12-01T05:00Z, 2025-12-02T05:00Z)` =
`[1764565200000 ms, 1764651600000 ms)`, a well-formed `start ≤ end` request
entirely before the cutoff; the interval actually used has
start = 1764806400000 > end = 1764651600000, violating `start ≤ end`. -/
theorem fetchWindow_counterexample :
    (1764565200000 : Int) ≤ 1764651600000 ∧
    ¬ (fetchWindow 1764565200000 1764651600000).1 ≤
        (fetchWindow 1764565200000 1764651600000).2 := by
  refine ⟨by decide, by decide⟩

/-- **C5 witness**: a request one hour around the cutoff keeps `start ≤ end`
after clamping. -/
theorem fetchWindow_spec_witness :
    (fetchWindow 1764802800000 1764810000000).1 ≤
      (fetchWindow 1764802800000 1764810000000).2 :=
  (fetchWindow_spec 1764802800000 1764810000000).2.1 (by decide) (by decide)

/-- One row of the by-label summary: `{ name, seconds }`. -/
structure LabelTotal where
  name : String
  seconds : Int
deriving DecidableEq, Repr

/-- One `totals.set(key, (totals.get(key) ?? 0) + amt)` step on a JS `Map`
modelled as an insertion-ordered association list: an existing key keeps its
position and accumulates; a new key is appended at the end. -/
def bump (totals : List (String × Int)) (key : String) (amt : Int) : List (String × Int) :=
  match totals with
  | [] => [(key, amt)]
  | (k, v) :: rest =>
    if k = key then (k, v + amt) :: rest else (k, v) :: bump rest key amt

/-- The keys an entry contributes to: the sentinel `"(no label)"` when its
tag list is empty, otherwise each of its tags (both `summarizeByTag` and
`groupEntriesByTag` use exactly this branch). -/
def effectiveTags (e : Entry) : List String :=
  if e.tags.isEmpty then ["(no label)"] else e.tags

/-- The accumulation loop of `summarizeByTag` (src/toggl-discord.js:104-119):
fold the entries, bumping each effective tag of an entry by that entry's
rounded duration. -/
def tagTotalsList (parse : String → Option Int) (now : Int)
    (entries : List Entry) : List (String × Int) :=
  entries.foldl
    (fun totals e =>
      (effectiveTags e).foldl (fun t tag => bump t tag (roundedDur parse now e)) totals)
    []

/-- The comparator `(a, b) => b.seconds - a.seconds` of the final
`Array.prototype.sort`, as the Boolean total preorder it sorts by. -/
def descendingBySeconds (a b : LabelTotal) : Bool := b.seconds ≤ a.seconds

/-- Embeds `summarizeByTag` (src/toggl-discord.js:104-124): accumulate the
per-tag totals in insertion order, turn them into `LabelTotal` rows, and
stable-sort descending by seconds (JS `sort` is stable, so `mergeSort` with
the same total preorder produces the identical list). -/
def summarizeByTag (parse : String → Option Int) (now : Int)
    (entries : List Entry) : List LabelTotal :=
  ((tagTotalsList parse now entries).map
    (fun p => { name := p.1, seconds := p.2 })).mergeSort descendingBySeconds

/-- Embeds `totalRoundedSeconds` (src/toggl-discord.js:126-132):
`entries.reduce((sum, e) => sum + round(dur(e)), 0)`. -/
def totalRoundedSeconds (parse : String → Option Int) (now : Int)
    (entries : List Entry) : Int :=
  entries.foldl (fun sum e => sum + roundedDur parse now e) 0

/-- Total associated to key `t` in an association list (0 when absent; sums
duplicates, though the lists built by `bump` never hold duplicate keys). -/
def assocSum (t : String) : List (String × Int) → Int
  | [] => 0
  | (k, v) :: rest => (if k = t then v else 0) + assocSum t rest

/-- Key list of an association list. -/
def keys (l : List (String × Int)) : List String := l.map Prod.fst


theorem keys_cons (k : String) (v : Int) (tl : List (String × Int)) :
    keys ((k, v) :: tl) = k :: keys tl := rfl

theorem bump_cons_ne (k' : String) (v : Int) (tl : List (String × Int))
    (k : String) (a : Int) (h : ¬ k' = k) :
    bump ((k', v) :: tl) k a = (k', v) :: bump tl k a := by
  simp [bump, h]

theorem assocSum_bump (l : List (String × Int)) (k t : String) (a : Int) :
    assocSum t (bump l k a) = assocSum t l + (if k = t then a else 0) := by
  induction l with
  | nil => by_cases h : k = t <;> simp [bump, assocSum, h]
  | cons hd tl ih =>
    obtain ⟨k', v⟩ := hd
    by_cases h : k' = k
    · subst h
      by_cases h2 : k' = t <;> simp [bump, assocSum, h2]
      omega
    · rw [bump_cons_ne k' v tl k a h]
      simp only [assocSum, ih]
      omega

theorem keys_bump_eq (l : List (String × Int)) (k : String) (a : Int) :
    keys (bump l k a) = if k ∈ keys l then keys l else keys l ++ [k] := by
  induction l with
  | nil => simp [bump, keys]
  | cons hd tl ih =>
    obtain ⟨k', v⟩ := hd
    by_cases h : k' = k
    · subst h
      simp [bump, keys_cons, List.mem_cons]
    · rw [bump_cons_ne k' v tl k a h, keys_cons, keys_cons, ih]
      by_cases hm : k ∈ keys tl
      · have hc : k ∈ k' :: keys tl := List.mem_cons_of_mem _ hm
        simp [hm, hc]
      · have hc : k ∉ k' :: keys tl := by
          intro hx
          rcases List.mem_cons.mp hx with hx | hx
          · exact h hx.symm
          · exact hm hx
        simp [hm, hc]

theorem mem_keys_bump (l : List (String × Int)) (k t : String) (a : Int) :
    t ∈ keys (bump l k a) ↔ t ∈ keys l ∨ t = k := by
  rw [keys_bump_eq]
  by_cases hm : k ∈ keys l
  · simp only [hm, if_pos]
    constructor
    · exact Or.inl
    · rintro (h | rfl)
      · exact h
      · exact hm
  · simp [hm]

theorem keys_nodup_bump (l : List (String × Int)) (k : String) (a : Int)
    (h : (keys l).Nodup) : (keys (bump l k a)).Nodup := by
  rw [keys_bump_eq]
  by_cases hm : k ∈ keys l
  · simpa [hm]
  · rw [if_neg hm, List.nodup_append]
    refine ⟨h, List.nodup_singleton k, ?_⟩
    intro x hx hxk
    rw [List.mem_singleton] at hxk
    subst hxk
    exact hm hx

theorem assocSum_eq_zero_of_not_mem (l : List (String × Int)) (t : String)
    (h : t ∉ keys l) : assocSum t l = 0 := by
  induction l with
  | nil => rfl
  | cons hd tl ih =>
    obtain ⟨k, v⟩ := hd
    rw [keys_cons] at h
    have h1 : ¬ k = t := by
      rintro rfl
      exact h (List.mem_cons_self _ _)
    have h2 : t ∉ keys tl := fun hx => h (List.mem_cons_of_mem _ hx)
    simp [assocSum, h1, ih h2]

theorem snd_eq_assocSum_of_mem (l : List (String × Int)) (t : String) (s : Int)
    (hmem : (t, s) ∈ l) (hnd : (keys l).Nodup) : s = assocSum t l := by
  induction l with
  | nil => cases hmem
  | cons hd tl ih =>
    obtain ⟨k, v⟩ := hd
    rw [keys_cons] at hnd
    rcases List.mem_cons.mp hmem with heq | hin
    · injection heq with h1 h2
      subst h1
      subst h2
      have hz : assocSum t tl = 0 :=
        assocSum_eq_zero_of_not_mem tl t (List.nodup_cons.mp hnd).1
      simp [assocSum, hz]
    · have htk : t ∈ keys tl := List.mem_map_of_mem Prod.fst hin
      have hk : ¬ k = t := by
        rintro rfl
        exact (List.nodup_cons.mp hnd).1 htk
      simp only [assocSum, if_neg hk, zero_add]
      exact ih hin (List.nodup_cons.mp hnd).2

theorem effectiveTags_nodup (e : Entry) (h : e.tags.Nodup) : (effectiveTags e).Nodup := by
  unfold effectiveTags
  split
  · exact List.nodup_singleton _
  · exact h

theorem one_le_length_effectiveTags (e : Entry) : 1 ≤ (effectiveTags e).length := by
  unfold effectiveTags
  cases htags : e.tags with
  | nil => simp [htags]
  | cons a l => simp [htags]

theorem roundToNearestFiveMinutes_nonneg (s : Int) :
    0 ≤ roundToNearestFiveMinutes s := by
  unfold roundToNearestFiveMinutes
  split
  · exact le_refl 0
  · exact le_trans (by norm_num) (le_max_left 300 _)

theorem roundedDur_nonneg (parse : String → Option Int) (now : Int) (e : Entry) :
    0 ≤ roundedDur parse now e :=
  roundToNearestFiveMinutes_nonneg _

theorem assocSum_foldl_bump (ts : List String) (t : String) (a : Int) :
    ∀ l, ts.Nodup →
      assocSum t (ts.foldl (fun acc tag => bump acc tag a) l)
        = assocSum t l + (if t ∈ ts then a else 0) := by
  induction ts with
  | nil =>
    intro l _
    simp
  | cons tag rest ih =>
    intro l hnd
    rw [List.foldl_cons, ih (bump l tag a) (List.nodup_cons.mp hnd).2, assocSum_bump]
    by_cases h1 : tag = t
    · subst h1
      have h2 : tag ∉ rest := (List.nodup_cons.mp hnd).1
      simp [h2]
    · have h1' : ¬ t = tag := fun h => h1 h.symm
      by_cases h2 : t ∈ rest <;> simp [h1, h1', h2, List.mem_cons]

theorem mem_keys_foldl_bump (ts : List String) (t : String) (a : Int) :
    ∀ l, t ∈ keys (ts.foldl (fun acc tag => bump acc tag a) l) ↔
      t ∈ keys l ∨ t ∈ ts := by
  induction ts with
  | nil =>
    intro l
    simp
  | cons tag rest ih =>
    intro l
    rw [List.foldl_cons, ih (bump l tag a), mem_keys_bump]
    simp [List.mem_cons]
    tauto

theorem keys_nodup_foldl_bump (ts : List String) (a : Int) :
    ∀ l, (keys l).Nodup →
      (keys (ts.foldl (fun acc tag => bump acc tag a) l)).Nodup := by
  induction ts with
  | nil =>
    intro l h
    simpa
  | cons tag rest ih =>
    intro l h
    rw [List.foldl_cons]
    exact ih (bump l tag a) (keys_nodup_bump l tag a h)

/-- Sum of the accumulated values of an association list. -/
def sndSum (l : List (String × Int)) : Int := (l.map Prod.snd).sum

theorem sndSum_bump (l : List (String × Int)) (k : String) (a : Int) :
    sndSum (bump l k a) = sndSum l + a := by
  induction l with
  | nil => simp [bump, sndSum]
  | cons hd tl ih =>
    obtain ⟨k', v⟩ := hd
    by_cases h : k' = k
    · subst h
      simp [bump, sndSum]
      omega
    · rw [bump_cons_ne k' v tl k a h]
      simp [sndSum] at ih ⊢
      omega

theorem sndSum_foldl_bump (ts : List String) (a : Int) :
    ∀ l, sndSum (ts.foldl (fun acc tag => bump acc tag a) l)
      = sndSum l + (ts.length : Int) * a := by
  induction ts with
  | nil =>
    intro l
    simp
  | cons tag rest ih =>
    intro l
    rw [List.foldl_cons, ih (bump l tag a), sndSum_bump, List.length_cons]
    push_cast
    ring

theorem assocSum_entries_foldl (parse : String → Option Int) (now : Int)
    (entries : List Entry) (t : String) :
    ∀ l, (∀ e ∈ entries, e.tags.Nodup) →
      assocSum t (entries.foldl
          (fun totals e =>
            (effectiveTags e).foldl
              (fun acc tag => bump acc tag (roundedDur parse now e)) totals) l)
        = assocSum t l
          + ((entries.filter (fun e => decide (t ∈ effectiveTags e))).map
              (roundedDur parse now)).sum := by
  induction entries with
  | nil =>
    intro l _
    simp
  | cons e rest ih =>
    intro l hnd
    rw [List.foldl_cons]
    rw [ih _ (fun x hx => hnd x (List.mem_cons_of_mem _ hx))]
    rw [assocSum_foldl_bump (effectiveTags e) t (roundedDur parse now e) l
      (effectiveTags_nodup e (hnd e (List.mem_cons_self _ _)))]
    by_cases hmem : t ∈ effectiveTags e
    · simp [List.filter_cons, hmem]
      omega
    · simp [List.filter_cons, hmem]

theorem mem_keys_entries_foldl (parse : String → Option Int) (now : Int)
    (entries : List Entry) (t : String) :
    ∀ l, t ∈ keys (entries.foldl
        (fun totals e =>
          (effectiveTags e).foldl
            (fun acc tag => bump acc tag (roundedDur parse now e)) totals) l)
      ↔ t ∈ keys l ∨ ∃ e ∈ entries, t ∈ effectiveTags e := by
  induction entries with
  | nil =>
    intro l
    simp
  | cons e rest ih =>
    intro l
    rw [List.foldl_cons, ih, mem_keys_foldl_bump]
    simp only [List.exists_mem_cons_iff]
    tauto

theorem keys_nodup_entries_foldl (parse : String → Option Int) (now : Int)
    (entries : List Entry) :
    ∀ l, (keys l).Nodup →
      (keys (entries.foldl
        (fun totals e =>
          (effectiveTags e).foldl
            (fun acc tag => bump acc tag (roundedDur parse now e)) totals) l)).Nodup := by
  induction entries with
  | nil =>
    intro l h
    simpa
  | cons e rest ih =>
    intro l h
    rw [List.foldl_cons]
    exact ih _ (keys_nodup_foldl_bump _ _ _ h)

theorem sndSum_entries_foldl (parse : String → Option Int) (now : Int)
    (entries : List Entry) :
    ∀ l, sndSum (entries.foldl
        (fun totals e =>
          (effectiveTags e).foldl
            (fun acc tag => bump acc tag (roundedDur parse now e)) totals) l)
      = sndSum l + (entries.map
          (fun e => ((effectiveTags e).length : Int) * roundedDur parse now e)).sum := by
  induction entries with
  | nil =>
    intro l
    simp
  | cons e rest ih =>
    intro l
    rw [List.foldl_cons, ih, sndSum_foldl_bump]
    simp only [List.map_cons, List.sum_cons]
    ring

theorem foldl_add_eq_sum (f : Entry → Int) (entries : List Entry) :
    ∀ a, entries.foldl (fun s e => s + f e) a = a + (entries.map f).sum := by
  induction entries with
  | nil =>
    intro a
    simp
  | cons e rest ih =>
    intro a
    rw [List.foldl_cons, ih]
    simp only [List.map_cons, List.sum_cons]
    ring

theorem descendingBySeconds_trans (a b c : LabelTotal)
    (hab : descendingBySeconds a b) (hbc : descendingBySeconds b c) :
    descendingBySeconds a c := by
  simp [descendingBySeconds] at *
  omega

theorem descendingBySeconds_total (a b : LabelTotal) :
    descendingBySeconds a b || descendingBySeconds b a := by
  simp [descendingBySeconds]
  omega

/-- **C2.** For every entry list whose entries carry no duplicate tags (tags
are a set in the data model): each row of `summarizeByTag` totals exactly the
rounded durations of the entries carrying that row's tag — an untagged entry
counts for the sentinel `"(no label)"` row and a multi-tag entry counts fully
for each of its tags (`effectiveTags`); tag rows are unique; a row exists for
a tag iff some entry carries it; the list is sorted descending by seconds;
and ties keep first-seen insertion order: any two rows that are equal on
seconds and appear in the insertion-ordered accumulation list in some order
appear in the output in that same order (stability of the sort). -/
theorem summarizeByTag_spec (parse : String → Option Int) (now : Int)
    (entries : List Entry) (hnd : ∀ e ∈ entries, e.tags.Nodup) :
    (∀ p ∈ summarizeByTag parse now entries,
      p.seconds = ((entries.filter (fun e => decide (p.name ∈ effectiveTags e))).map
        (roundedDur parse now)).sum) ∧
    ((summarizeByTag parse now entries).map LabelTotal.name).Nodup ∧
    (∀ t : String,
      (∃ p ∈ summarizeByTag parse now entries, p.name = t) ↔
        ∃ e ∈ entries, t ∈ effectiveTags e) ∧
    (summarizeByTag parse now entries).Pairwise (fun a b => b.seconds ≤ a.seconds) ∧
    (∀ a b : LabelTotal,
      [a, b].Sublist ((tagTotalsList parse now entries).map
        (fun p => { name := p.1, seconds := p.2 })) →
      a.seconds = b.seconds →
      [a, b].Sublist (summarizeByTag parse now entries)) := by
  have hkeysnd : (keys (tagTotalsList parse now entries)).Nodup :=
    keys_nodup_entries_foldl parse now entries [] (by simp [keys])
  have hperm : List.Perm (summarizeByTag parse now entries)
      ((tagTotalsList parse now entries).map
        (fun p => { name := p.1, seconds := p.2 })) := by
    unfold summarizeByTag
    exact List.mergeSort_perm _ _
  refine ⟨?_, ?_, ?_, ?_, ?_⟩
  · intro p hp
    have hpM := hperm.subset hp
    obtain ⟨q, hq, rfl⟩ := List.mem_map.mp hpM
    obtain ⟨t, s⟩ := q
    show s = ((entries.filter (fun e => decide (t ∈ effectiveTags e))).map
      (roundedDur parse now)).sum
    have hs : s = assocSum t (tagTotalsList parse now entries) :=
      snd_eq_assocSum_of_mem _ t s hq hkeysnd
    rw [hs]
    have h2 := assocSum_entries_foldl parse now entries t [] hnd
    simpa [tagTotalsList, assocSum] using h2
  · rw [List.Perm.nodup_iff (hperm.map LabelTotal.name), List.map_map]
    exact hkeysnd
  · intro t
    constructor
    · rintro ⟨p, hp, rfl⟩
      have hpM := hperm.subset hp
      obtain ⟨q, hq, rfl⟩ := List.mem_map.mp hpM
      have hk : q.1 ∈ keys (tagTotalsList parse now entries) :=
        List.mem_map_of_mem Prod.fst hq
      have h3 := (mem_keys_entries_foldl parse now entries q.1 []).mp
        (by simpa [tagTotalsList] using hk)
      rcases h3 with h | h
      · simp [keys] at h
      · exact h
    · rintro ⟨e, he, hte⟩
      have hk : t ∈ keys (tagTotalsList parse now entries) := by
        have := (mem_keys_entries_foldl parse now entries t []).mpr
          (Or.inr ⟨e, he, hte⟩)
        simpa [tagTotalsList] using this
      obtain ⟨⟨t', s⟩, hq, ht'⟩ := List.mem_map.mp hk
      refine ⟨{ name := t, seconds := s }, ?_, rfl⟩
      apply hperm.mem_iff.mpr
      have : ((t', s) : String × Int).1 = t := ht'
      simp only at this
      subst this
      exact List.mem_map_of_mem _ hq
  · have hs := List.sorted_mergeSort descendingBySeconds_trans descendingBySeconds_total
      ((tagTotalsList parse now entries).map
        (fun p => ({ name := p.1, seconds := p.2 } : LabelTotal)))
    have hgoal : (summarizeByTag parse now entries).Pairwise
        (fun a b => descendingBySeconds a b = true) := hs
    exact hgoal.imp (fun h => by simpa [descendingBySeconds] using h)
  · intro a b hsub heq
    unfold summarizeByTag
    apply List.pair_sublist_mergeSort descendingBySeconds_trans descendingBySeconds_total
      ?_ hsub
    simp [descendingBySeconds, heq]

/-- A two-entry sample: one entry tagged `"a"` (700 s → 600 s rounded), one
untagged (100 s → 300 s rounded). -/
def sampleEntries : List Entry :=
  [{ duration := some 700, start := none, tags := ["a"],
     description := none, project_id := none },
   { duration := some 100, start := none, tags := [],
     description := none, project_id := none }]

/-- **C2 witness**: the by-label rows of the sample have pairwise-distinct
names, by `summarizeByTag_spec` with the no-duplicate-tags hypothesis
discharged by computation. -/
theorem summarizeByTag_spec_witness :
    ((summarizeByTag (fun _ => none) 0 sampleEntries).map LabelTotal.name).Nodup :=
  (summarizeByTag_spec (fun _ => none) 0 sampleEntries (by decide)).2.1

/-- An entry with two tags: its full rounded duration (600 s) is counted once
per tag by the by-label aggregation. -/
def multiTagEntry : Entry :=
  { duration := some 600, start := none, tags := ["a", "b"],
    description := none, project_id := none }

theorem groupTotalsSum_eq (parse : String → Option Int) (now : Int)
    (entries : List Entry) :
    ((summarizeByTag parse now entries).map LabelTotal.seconds).sum
      = (entries.map
          (fun e => ((effectiveTags e).length : Int) * roundedDur parse now e)).sum := by
  have hperm : List.Perm (summarizeByTag parse now entries)
      ((tagTotalsList parse now entries).map
        (fun p => { name := p.1, seconds := p.2 })) := by
    unfold summarizeByTag
    exact List.mergeSort_perm _ _
  rw [(hperm.map LabelTotal.seconds).sum_eq, List.map_map]
  have h2 := sndSum_entries_foldl parse now entries []
  simpa [tagTotalsList, sndSum] using h2

/-- **C3.** For every entry list, the grand total equals the direct sum of
rounded per-entry durations; it is at most the sum of all by-label group
totals; and it can be strictly less when an entry carries two or more tags
(concretely: one 600-second entry tagged `"a"` and `"b"` gives grand total
600 but group-total sum 1200). -/
theorem totalRoundedSeconds_spec (parse : String → Option Int) (now : Int)
    (entries : List Entry) :
    totalRoundedSeconds parse now entries = (entries.map (roundedDur parse now)).sum ∧
    totalRoundedSeconds parse now entries ≤
      ((summarizeByTag parse now entries).map LabelTotal.seconds).sum ∧
    totalRoundedSeconds (fun _ => none) 0 [multiTagEntry] <
      ((summarizeByTag (fun _ => none) 0 [multiTagEntry]).map LabelTotal.seconds).sum := by
  have hdirect : ∀ (ents : List Entry), totalRoundedSeconds parse now ents
      = (ents.map (roundedDur parse now)).sum := by
    intro ents
    unfold totalRoundedSeconds
    rw [foldl_add_eq_sum]
    simp
  refine ⟨hdirect entries, ?_, ?_⟩
  · rw [hdirect entries, groupTotalsSum_eq]
    apply List.sum_le_sum
    intro e _
    exact le_mul_of_one_le_left (roundedDur_nonneg parse now e)
      (by exact_mod_cast one_le_length_effectiveTags e)
  · rw [groupTotalsSum_eq]
    decide

/-- One `grouped.get(tag).push(entry)` step (with `set(tag, [])` on a missing
key) of `groupEntriesByTag`, on an insertion-ordered association list. -/
def appendGroup (g : List (String × List Entry)) (k : String) (e : Entry) :
    List (String × List Entry) :=
  match g with
  | [] => [(k, [e])]
  | (k', es) :: rest =>
    if k' = k then (k', es ++ [e]) :: rest else (k', es) :: appendGroup rest k e

/-- Embeds `groupEntriesByTag` (src/toggl-discord.js:134-147): group the
entries under the same effective tags used by the summary. -/
def groupEntriesByTag (entries : List Entry) : List (String × List Entry) :=
  entries.foldl
    (fun g e => (effectiveTags e).foldl (fun g2 tag => appendGroup g2 tag e) g) []

/-- Embeds `grouped.get(tag.name) || []`. -/
def lookupGroup (g : List (String × List Entry)) (k : String) : List Entry :=
  match g with
  | [] => []
  | (k', es) :: rest => if k' = k then es else lookupGroup rest k

/-- One row of the per-description summary. -/
structure DescTotal where
  description : String
  seconds : Int
deriving DecidableEq, Repr

/-- Embeds `entry.description || "No description"` (absent and empty string
are both falsy). -/
def descOf (e : Entry) : String :=
  match e.description with
  | none => "No description"
  | some d => if d = "" then "No description" else d

/-- The accumulation loop of `aggregateByDescription`
(src/toggl-discord.js:149-160). -/
def descTotalsList (parse : String → Option Int) (now : Int)
    (entries : List Entry) : List (String × Int) :=
  entries.foldl (fun m e => bump m (descOf e) (roundedDur parse now e)) []

/-- The comparator of `aggregateByDescription`'s final sort. -/
def descendingDescBySeconds (a b : DescTotal) : Bool := b.seconds ≤ a.seconds

/-- Embeds `aggregateByDescription` (src/toggl-discord.js:149-165). -/
def aggregateByDescription (parse : String → Option Int) (now : Int)
    (entries : List Entry) : List DescTotal :=
  ((descTotalsList parse now entries).map
    (fun p => { description := p.1, seconds := p.2 })).mergeSort descendingDescBySeconds

/-- Embeds `buildDiscordMessage` (src/toggl-discord.js:174-207).  The literal
strings reproduce the source bytes exactly (the bullet and clock emoji appear
mojibake-encoded in the file).  All seconds reaching `formatDuration` are
non-negative, so the `Int.toNat` bridge to the `Nat`-typed formatter is
exact. -/
def buildDiscordMessage (parse : String → Option Int) (now : Int)
    (todayEntries : List Entry) (todayTags : List LabelTotal)
    (todayLabel : String) (todayTotal : Int) : String :=
  let header := "**" ++ todayLabel ++ "**"
  let bodyLines : List String :=
    if todayEntries.isEmpty then ["â€¢ No entries yet"]
    else
      let grouped := groupEntriesByTag todayEntries
      let tagLines := todayTags.foldl
        (fun lines tag =>
          let entriesForTag := lookupGroup grouped tag.name
          let aggregated := aggregateByDescription parse now entriesForTag
          (lines ++ ["**" ++ tag.name ++ "**"]) ++
            aggregated.map (fun d =>
              "â€¢ " ++ d.description ++ " ðŸ•“  " ++ formatDuration d.seconds.toNat))
        []
      let withBlank := if tagLines.isEmpty then tagLines else tagLines ++ [""]
      withBlank ++ ["Total: **" ++ formatDuration todayTotal.toNat ++ "**"]
  let maxLen := (bodyLines.map String.length).foldl max header.length
  let separator := String.mk (List.replicate maxLen '-')
  String.intercalate "\n" (header :: separator :: bodyLines)

/-- Embeds `filterEntriesForProject` (src/toggl-discord.js:167-172) with the
parsed `TOGGL_PROJECT_ID` made explicit: `!TOGGL_PROJECT_ID` is true both for
an unconfigured id (`none`) and for the falsy number 0, and strict equality
`entry.project_id === id` excludes entries without a `project_id`. -/
def filterEntriesForProject (projectId : Option Int) (entries : List Entry) :
    List Entry :=
  match projectId with
  | none => entries
  | some p =>
    if p = 0 then entries
    else entries.filter (fun e => e.project_id == some p)

/-- Embeds the `DRY_RUN` flag computation (src/toggl-discord.js:16-19):
exact, case-sensitive match against `"1"`, `"true"`, `"yes"`. -/
def DRY_RUN (s : Option String) : Bool :=
  s == some "1" || s == some "true" || s == some "yes"

/-- Outcome of one run of `main` after the entries have been fetched:
skip-and-exit-0 on an empty filtered set, print the message in dry-run mode
(exit 0, no webhook call), or post the message to the webhook. -/
inductive Delivery where
  | skippedEmpty : Delivery
  | dryRunPrint : String → Delivery
  | posted : String → Delivery
deriving DecidableEq, Repr

/-- Embeds the decision structure of `main` (src/toggl-discord.js:249-286)
after the fetch: filter by project, return early (exit code 0, webhook never
contacted) when the filtered set is empty, otherwise build the message and
either print it (dry run) or post it. -/
def mainDecision (parse : String → Option Int) (now : Int) (dryRun : Bool)
    (projectId : Option Int) (todayLabel : String) (entries : List Entry) :
    Delivery :=
  let filtered := filterEntriesForProject projectId entries
  if filtered.isEmpty then Delivery.skippedEmpty
  else
    let todayTags := summarizeByTag parse now filtered
    let todayTotal := totalRoundedSeconds parse now filtered
    let message := buildDiscordMessage parse now filtered todayTags todayLabel todayTotal
    if dryRun then Delivery.dryRunPrint message else Delivery.posted message

/-- **C7.** In every run: the webhook delivery happens only when the
project-filtered entry set is non-empty and dry-run is off; an empty filtered
set short-circuits to the skip outcome (the run returns normally, exit code
0, without contacting the webhook); and in dry-run mode no `posted` outcome
is ever produced. -/
theorem mainDecision_spec (parse : String → Option Int) (now : Int)
    (dryRun : Bool) (projectId : Option Int) (label : String)
    (entries : List Entry) :
    (filterEntriesForProject projectId entries = [] →
      mainDecision parse now dryRun projectId label entries = Delivery.skippedEmpty) ∧
    (∀ msg, mainDecision parse now dryRun projectId label entries = Delivery.posted msg →
      filterEntriesForProject projectId entries ≠ [] ∧ dryRun = false) ∧
    (dryRun = true →
      ∀ msg, mainDecision parse now dryRun projectId label entries ≠ Delivery.posted msg) := by
  refine ⟨?_, ?_, ?_⟩
  · intro h
    simp [mainDecision, h]
  · intro msg h
    by_cases hemp : (filterEntriesForProject projectId entries).isEmpty
    · simp [mainDecision, hemp] at h
    · refine ⟨?_, ?_⟩
      · intro hnil
        rw [hnil] at hemp
        simp at hemp
      · by_cases hd : dryRun
        · simp [mainDecision, hemp, hd] at h
        · simpa using hd
  · intro hd msg h
    by_cases hemp : (filterEntriesForProject projectId entries).isEmpty <;>
      simp [mainDecision, hemp, hd] at h

/-- **C7 witness**: with a configured project id 5 and entries carrying no
project id, the filtered set is empty and the run skips delivery. -/
theorem mainDecision_spec_witness :
    mainDecision (fun _ => none) 0 false (some 5) "Dec 12" sampleEntries
      = Delivery.skippedEmpty :=
  (mainDecision_spec (fun _ => none) 0 false (some 5) "Dec 12" sampleEntries).1
    (by decide)

/-- **C9.** When the configured project-id string parses to the number 0, the
project filter is the identity on every entry list: `!TOGGL_PROJECT_ID` is
true for the falsy number 0, so the configured filter is never applied. -/
theorem filterEntriesForProject_zero_spec (entries : List Entry) :
    filterEntriesForProject (some 0) entries = entries := by
  simp [filterEntriesForProject]

/-- **C10.** Dry-run mode is on exactly for the strings `"1"`, `"true"`,
`"yes"` (case-sensitive); `"TRUE"`, `"Yes"` and `"on"` all leave it off; and
with dry-run off, any run whose filtered entry set is non-empty produces the
real webhook delivery outcome. -/
theorem DRY_RUN_spec :
    (∀ s : Option String, DRY_RUN s = true ↔
      (s = some "1" ∨ s = some "true" ∨ s = some "yes")) ∧
    DRY_RUN (some "TRUE") = false ∧
    DRY_RUN (some "Yes") = false ∧
    DRY_RUN (some "on") = false ∧
    (∀ (parse : String → Option Int) (now : Int) (s : Option String)
        (projectId : Option Int) (label : String) (entries : List Entry),
      DRY_RUN s = false →
      filterEntriesForProject projectId entries ≠ [] →
      ∃ msg, mainDecision parse now (DRY_RUN s) projectId label entries
        = Delivery.posted msg) := by
  refine ⟨?_, by decide, by decide, by decide, ?_⟩
  · intro s
    simp [DRY_RUN]
    exact or_assoc
  · intro parse now s projectId label entries hfalse hne
    have hemp : (filterEntriesForProject projectId entries).isEmpty = false := by
      simpa [List.isEmpty_iff] using hne
    rw [hfalse]
    refine ⟨buildDiscordMessage parse now (filterEntriesForProject projectId entries)
      (summarizeByTag parse now (filterEntriesForProject projectId entries)) label
      (totalRoundedSeconds parse now (filterEntriesForProject projectId entries)), ?_⟩
    simp [mainDecision, hemp]

/-- **C10 witness**: `DRY_RUN=TRUE` (wrong case) does not enable dry-run, so
a run over the non-empty unfiltered sample posts to the webhook. -/
theorem DRY_RUN_spec_witness :
    ∃ msg, mainDecision (fun _ => none) 0 (DRY_RUN (some "TRUE")) none "Dec 12"
      sampleEntries = Delivery.posted msg :=
  DRY_RUN_spec.2.2.2.2 (fun _ => none) 0 (some "TRUE") none "Dec 12" sampleEntries
    (by decide) (by decide)

/-- Gregorian leap-year rule. -/
def isLeapYear (y : Nat) : Bool :=
  (y % 4 == 0 && y % 100 != 0) || y % 400 == 0

/-- Days in a month of the proleptic Gregorian calendar. -/
def daysInMonth (y m : Nat) : Nat :=
  if m = 2 then (if isLeapYear y then 29 else 28)
  else if m = 4 ∨ m = 6 ∨ m = 9 ∨ m = 11 then 30
  else 31

/-- JS `String.prototype.toLowerCase`, character-wise (the script only
compares against the ASCII tokens "yesterday" and "today"). -/
def jsToLower (s : String) : String := String.mk (s.toList.map Char.toLower)

/-- JS `String.prototype.trim`: strip leading and trailing whitespace. -/
def jsTrim (s : String) : String :=
  String.mk
    (((s.toList.dropWhile Char.isWhitespace).reverse.dropWhile
      Char.isWhitespace).reverse)

/-- Decimal value of a digit list. -/
def digitsVal (cs : List Char) : Nat :=
  cs.foldl (fun n c => 10 * n + (c.toNat - 48)) 0

/-- Modelled from the spec: the call
`DateTime.fromFormat(trimmed, "yyyy-LL-dd", { zone: TIMEZONE })` delegates to
the external luxon library, which is not part of this repository.  Per the
spec the accepted input is "an explicit calendar date string in a fixed
`YYYY-MM-DD` format", with anything malformed yielding an invalid result:
the string must be year-month-day separated by dashes (the `yyyy` token
accepts 4–6 digits, `LL` and `dd` exactly 2 each) and must denote a real
calendar date. -/
def parseYMD (s : String) : Option (Nat × Nat × Nat) :=
  match s.toList.splitOn '-' with
  | [ys, ms, ds] =>
    if ys.all Char.isDigit && decide (4 ≤ ys.length) && decide (ys.length ≤ 6)
        && ms.all Char.isDigit && decide (ms.length = 2)
        && ds.all Char.isDigit && decide (ds.length = 2) then
      let y := digitsVal ys
      let m := digitsVal ms
      let d := digitsVal ds
      if 1 ≤ m ∧ m ≤ 12 ∧ 1 ≤ d ∧ d ≤ daysInMonth y m then some (y, m, d)
      else none
    else none
  | _ => none

/-- A resolved run date: either "now in America/New_York minus `n` days"
(`relDays 1` = yesterday, `relDays 0` = today) or an explicit civil date in
that timezone. -/
inductive RunDate where
  | relDays : Nat → RunDate
  | civil : Nat → Nat → Nat → RunDate
deriving DecidableEq, Repr

/-- Embeds `parseRunDate` (src/toggl-discord.js:228-247) over an optional
`RUN_DATE` environment string (`none` = variable unset, also falsy in JS). -/
def parseRunDate (value : Option String) : Except String RunDate :=
  match value with
  | none => Except.ok (RunDate.relDays 1)
  | some v =>
    if v = "" ∨ jsToLower v = "yesterday" then Except.ok (RunDate.relDays 1)
    else if jsToLower v = "today" then Except.ok (RunDate.relDays 0)
    else
      match parseYMD (jsTrim v) with
      | some (y, m, d) => Except.ok (RunDate.civil y m d)
      | none =>
        Except.error ("Invalid RUN_DATE provided (expected YYYY-MM-DD): " ++ v)

/-- **C8.** `parseRunDate` resolves an absent value, the empty string, and
any casing of "yesterday" to yesterday's civil date in America/New_York;
any casing of "today" to today's civil date there; a (trimmed) well-formed
`YYYY-MM-DD` string to exactly that calendar date; and any other string to a
validation error whose message names the offending input. -/
theorem parseRunDate_spec :
    parseRunDate none = Except.ok (RunDate.relDays 1) ∧
    (∀ v : String, v = "" ∨ jsToLower v = "yesterday" →
      parseRunDate (some v) = Except.ok (RunDate.relDays 1)) ∧
    (∀ v : String, jsToLower v = "today" →
      parseRunDate (some v) = Except.ok (RunDate.relDays 0)) ∧
    (∀ (v : String) (y m d : Nat), jsToLower v ≠ "yesterday" → jsToLower v ≠ "today" →
      parseYMD (jsTrim v) = some (y, m, d) →
      parseRunDate (some v) = Except.ok (RunDate.civil y m d)) ∧
    (∀ v : String, v ≠ "" → jsToLower v ≠ "yesterday" → jsToLower v ≠ "today" →
      parseYMD (jsTrim v) = none →
      parseRunDate (some v) = Except.error
        ("Invalid RUN_DATE provided (expected YYYY-MM-DD): " ++ v)) := by
  refine ⟨rfl, ?_, ?_, ?_, ?_⟩
  · intro v hv
    rcases hv with hv | hv <;> simp [parseRunDate, hv]
  · intro v hv
    have hne : ¬ v = "" := by
      intro h
      rw [h] at hv
      exact absurd hv (by decide)
    have hny : ¬ jsToLower v = "yesterday" := by
      rw [hv]
      decide
    simp [parseRunDate, hne, hny, hv]
  · intro v y m d hny ht hp
    have hne : ¬ v = "" := by
      intro h
      rw [h] at hp
      rw [show parseYMD (jsTrim "") = none by decide] at hp
      cases hp
    simp [parseRunDate, hne, hny, ht, hp]
  · intro v hne hny ht hp
    simp [parseRunDate, hne, hny, ht, hp]

/-- **C8 witness**: `"2025-13-09"` (month 13) is rejected with an error
naming the input; the guards are discharged by computation. -/
theorem parseRunDate_spec_witness :
    parseRunDate (some "2025-13-09") = Except.error
      ("Invalid RUN_DATE provided (expected YYYY-MM-DD): " ++ "2025-13-09") :=
  parseRunDate_spec.2.2.2.2 "2025-13-09" (by decide) (by decide) (by decide)
    (by decide)
